import Mathlib

set_option maxRecDepth 100000

/-!
Shallow embedding of the classification scoring engine of `classify2.py`
(text normalization, rule loading, multi-mode term matching, scoring,
AUTO/REVIEW decision policy), together with theorems settling the spec
claims about it.

Strings are modelled as Lean `String` (a wrapper around `List Char`);
Python `int` as `Int`; Python functions that may raise as `Except`.
Library calls of the Python standard library (`unicodedata.normalize`,
`str.casefold`, the `re` module) are modelled by executable Lean
functions that are faithful on the finite character/pattern repertoire
exercised here; each such model is documented at its definition.
-/

namespace Classify2

/-! ## Python string primitives -/

/-- Models `Py_UNICODE_ISSPACE`, the whitespace notion shared by Python's
`str.strip`, `str.isspace` and the `re` module's `\s` for text patterns. -/
def pyIsSpace (c : Char) : Bool :=
  let n := c.toNat
  (9 ≤ n && n ≤ 13) || n = 32 || (28 ≤ n && n ≤ 31) || n = 0x85 || n = 0xa0 ||
    n = 0x1680 || (0x2000 ≤ n && n ≤ 0x200a) || n = 0x2028 || n = 0x2029 ||
    n = 0x202f || n = 0x205f || n = 0x3000

/-- Whether a character list begins with a whitespace character. -/
def firstIsWs : List Char → Bool
  | [] => false
  | c :: _ => pyIsSpace c

/-- Drop leading whitespace (the left half of Python's `str.strip`). -/
def dropWs : List Char → List Char
  | [] => []
  | c :: cs => if pyIsSpace c then dropWs cs else c :: cs

/-- Drop trailing whitespace (the right half of Python's `str.strip`). -/
def rstripL : List Char → List Char
  | [] => []
  | c :: cs =>
    let r := rstripL cs
    if r = [] && pyIsSpace c then [] else c :: r

/-- Models Python `str.strip()` with no arguments. -/
def pyStrip (s : String) : String := String.mk (rstripL (dropWs s.data))

/-- Split a character list on every occurrence of `sep`
(models Python `str.split(sep)` with a one-character separator). -/
def splitOnChar (sep : Char) : List Char → List (List Char)
  | [] => [[]]
  | c :: cs =>
    let r := splitOnChar sep cs
    if c = sep then [] :: r
    else
      match r with
      | h :: t => (c :: h) :: t
      | [] => [[c]]

/-- Split at the first occurrence of `sep`, returning the pieces before and
after it; `none` when `sep` does not occur
(models Python `line.split(sep, 1)` guarded by `sep in line`). -/
def splitFirst (sep : Char) : List Char → Option (List Char × List Char)
  | [] => none
  | c :: cs =>
    if c = sep then some ([], cs)
    else (splitFirst sep cs).map (fun p => (c :: p.1, p.2))

/-- Models Python `str.splitlines` for newline-separated text: split on
`'\n'` and drop a final empty piece produced by a trailing newline. -/
def pySplitlines (s : String) : List String :=
  let r := splitOnChar '\n' s.data
  (if r.getLast? = some [] then r.dropLast else r).map String.mk

/-- Models Python `str.startswith` for string prefixes. -/
def strStartsWith (s p : String) : Bool := p.data.isPrefixOf s.data

/-- Models Python slicing `s[n:]`. -/
def strDrop (s : String) (n : Nat) : String := String.mk (s.data.drop n)

/-- Fuel-driven scan counting non-overlapping occurrences of a non-empty
needle, left to right (the loop inside CPython's `str.count`). -/
def countOccAux : Nat → List Char → List Char → Nat
  | 0, _, _ => 0
  | fuel + 1, hay, nee =>
    match hay with
    | [] => 0
    | _ :: t =>
      if nee.isPrefixOf hay then 1 + countOccAux fuel (hay.drop nee.length) nee
      else countOccAux fuel t nee

/-- Models Python `str.count`: non-overlapping substring occurrences; an
empty needle is counted once per position, i.e. `len(hay) + 1` times. -/
def pyCount (hay nee : String) : Int :=
  if nee = "" then (hay.data.length : Int) + 1
  else (countOccAux (hay.data.length + 1) hay.data nee.data : Nat)

/-! ## Unicode model

`unicodedata.normalize("NFKC", s)`, `str.casefold` and
`unicodedata.combining` are modelled over a finite character table:
compatibility decomposition followed by left-to-right canonical
composition of adjacent pairs.  Characters outside the table behave as
identity, which agrees with real NFKC on the repertoire used in this
development (ASCII, Portuguese accented letters, the `fi`/`fl` ligatures,
typographic spaces, and the invisible marks the code removes). -/

def cAcute : Char := Char.ofNat 0x301
def cGrave : Char := Char.ofNat 0x300
def cCirc : Char := Char.ofNat 0x302
def cTilde : Char := Char.ofNat 0x303
def cDiaer : Char := Char.ofNat 0x308
def cCedil : Char := Char.ofNat 0x327
def cSHY : Char := Char.ofNat 0xad
def cBOM : Char := Char.ofNat 0xfeff
def cZWSP : Char := Char.ofNat 0x200b
def cZWNJ : Char := Char.ofNat 0x200c
def cZWJ : Char := Char.ofNat 0x200d
def cNBSP : Char := Char.ofNat 0xa0

/-- Compatibility/canonical decompositions (finite NFKD table). -/
def decompTable : List (Char × List Char) :=
  [ (Char.ofNat 0xe9, ['e', cAcute]),   -- é
    (Char.ofNat 0xe1, ['a', cAcute]),   -- á
    (Char.ofNat 0xed, ['i', cAcute]),   -- í
    (Char.ofNat 0xf3, ['o', cAcute]),   -- ó
    (Char.ofNat 0xfa, ['u', cAcute]),   -- ú
    (Char.ofNat 0xe3, ['a', cTilde]),   -- ã
    (Char.ofNat 0xf5, ['o', cTilde]),   -- õ
    (Char.ofNat 0xe7, ['c', cCedil]),   -- ç
    (Char.ofNat 0xea, ['e', cCirc]),    -- ê
    (Char.ofNat 0xe2, ['a', cCirc]),    -- â
    (Char.ofNat 0xf4, ['o', cCirc]),    -- ô
    (Char.ofNat 0xe0, ['a', cGrave]),   -- à
    (Char.ofNat 0xc9, ['E', cAcute]),   -- É
    (Char.ofNat 0xc1, ['A', cAcute]),   -- Á
    (Char.ofNat 0xc7, ['C', cCedil]),   -- Ç
    (Char.ofNat 0xfb01, ['f', 'i']),    -- fi ligature
    (Char.ofNat 0xfb02, ['f', 'l']),    -- fl ligature
    (cNBSP, [' ']),
    (Char.ofNat 0x2002, [' ']),
    (Char.ofNat 0x2003, [' ']) ]

/-- Per-character NFKD step of the model. -/
def charDecompNFKC (c : Char) : List Char :=
  match decompTable.find? (fun e => e.1 == c) with
  | some e => e.2
  | none => [c]

/-- Primary canonical compositions (finite table, inverse of the canonical
entries of `decompTable`). -/
def compTable : List ((Char × Char) × Char) :=
  [ (('e', cAcute), Char.ofNat 0xe9),
    (('a', cAcute), Char.ofNat 0xe1),
    (('i', cAcute), Char.ofNat 0xed),
    (('o', cAcute), Char.ofNat 0xf3),
    (('u', cAcute), Char.ofNat 0xfa),
    (('a', cTilde), Char.ofNat 0xe3),
    (('o', cTilde), Char.ofNat 0xf5),
    (('c', cCedil), Char.ofNat 0xe7),
    (('e', cCirc), Char.ofNat 0xea),
    (('a', cCirc), Char.ofNat 0xe2),
    (('o', cCirc), Char.ofNat 0xf4),
    (('a', cGrave), Char.ofNat 0xe0),
    (('E', cAcute), Char.ofNat 0xc9),
    (('A', cAcute), Char.ofNat 0xc1),
    (('C', cCedil), Char.ofNat 0xc7) ]

/-- Look up the canonical composition of an adjacent character pair. -/
def compLookup (a b : Char) : Option Char :=
  (compTable.find? (fun e => e.1.1 == a && e.1.2 == b)).map (fun e => e.2)

/-- Left-to-right canonical composition pass, carrying the current
leftmost uncomposed character. -/
def composeAux : Char → List Char → List Char
  | a, [] => [a]
  | a, b :: rest =>
    match compLookup a b with
    | some c => composeAux c rest
    | none => a :: composeAux b rest

/-- Canonical composition of a whole character list. -/
def composePairs : List Char → List Char
  | [] => []
  | a :: rest => composeAux a rest

/-- Models `unicodedata.normalize("NFKC", s)` over the finite table:
compatibility decomposition, then canonical composition. -/
def nfkcL (l : List Char) : List Char :=
  composePairs (l.flatMap charDecompNFKC)

/-- The invisible marks removed by `_clean_unicode_common`
(BOM, soft hyphen, zero-width space / non-joiner / joiner). -/
def invisibleChars : List Char := [cBOM, cSHY, cZWSP, cZWNJ, cZWJ]

/-- Removal of the invisible marks (`s.replace(mark, "")` chain). -/
def removeInvisibles (l : List Char) : List Char :=
  l.filter (fun c => !invisibleChars.contains c)

/-- The `s.replace(" ", " ")` step. -/
def nbspToSpace (l : List Char) : List Char :=
  l.map (fun c => if c = cNBSP then ' ' else c)

/-- State-machine form of `re.sub(r"-\s+", "", s)`: a hyphen followed by
whitespace is dropped together with the whole whitespace run.  The flag
records that we are inside the whitespace run of a removed hyphen. -/
def dehyphAux : Bool → List Char → List Char
  | _, [] => []
  | skip, c :: cs =>
    if skip && pyIsSpace c then dehyphAux true cs
    else if c = '-' && firstIsWs cs then dehyphAux true cs
    else c :: dehyphAux false cs

/-- Models `re.sub(r"-\s+", "", s)`. -/
def dehyph (l : List Char) : List Char := dehyphAux false l

/-- State-machine form of `re.sub(r"\s+", " ", s)`: each maximal
whitespace run becomes one space.  The flag records that the previous
character belonged to a whitespace run already replaced. -/
def collapseAux : Bool → List Char → List Char
  | _, [] => []
  | inWs, c :: cs =>
    if pyIsSpace c then
      if inWs then collapseAux true cs else ' ' :: collapseAux true cs
    else c :: collapseAux false cs

/-- Models `re.sub(r"\s+", " ", s)`. -/
def collapseWs (l : List Char) : List Char := collapseAux false l

/-- The list-level pipeline of `_clean_unicode_common`. -/
def cleanL (l : List Char) : List Char :=
  rstripL (dropWs (collapseWs (dehyph (nbspToSpace (removeInvisibles (nfkcL l))))))

/-- Embeds `_clean_unicode_common` of `classify2.py`: NFKC, invisible-mark
removal, NBSP to space, hyphen-then-whitespace removal, whitespace
collapsing, strip. -/
def _clean_unicode_common (s : String) : String := String.mk (cleanL s.data)

/-- Per-character full case folding (finite model of `str.casefold`):
ASCII upper to lower, a few accented uppercase letters, `ß` to `ss`,
the `fi`/`fl` ligatures to their letter pairs; identity elsewhere. -/
def casefoldChar (c : Char) : List Char :=
  if 65 ≤ c.toNat && c.toNat ≤ 90 then [Char.ofNat (c.toNat + 32)]
  else if c = Char.ofNat 0xc9 then [Char.ofNat 0xe9]
  else if c = Char.ofNat 0xc1 then [Char.ofNat 0xe1]
  else if c = Char.ofNat 0xc7 then [Char.ofNat 0xe7]
  else if c = Char.ofNat 0xdf then ['s', 's']
  else if c = Char.ofNat 0xfb01 then ['f', 'i']
  else if c = Char.ofNat 0xfb02 then ['f', 'l']
  else [c]

/-- Models Python `str.casefold`. -/
def pyCasefold (s : String) : String := String.mk (s.data.flatMap casefoldChar)

/-- Combining marks of the model (where `unicodedata.combining c != 0`). -/
def isCombining (c : Char) : Bool :=
  [cAcute, cGrave, cCirc, cTilde, cDiaer, cCedil].contains c

/-- Embeds `_strip_accents` of `classify2.py`: NFKD (decomposition half of
the table model) followed by removal of combining marks. -/
def _strip_accents (s : String) : String :=
  String.mk ((s.data.flatMap charDecompNFKC).filter (fun c => !isCombining c))

/-- Embeds `normalize` of `classify2.py` (flags passed positionally:
casefold first, strip_accents second). -/
def normalize (s : String) (casefold strip_accents : Bool) : String :=
  let s1 := _clean_unicode_common s
  let s2 := if casefold then pyCasefold s1 else s1
  if strip_accents then _strip_accents s2 else s2

/-! ## Regex model

Models the `re` module calls of `classify2.py`
(`re.findall(pattern, text, flags)` with `re.MULTILINE` always set and
`re.IGNORECASE` optionally, inside a `try/except re.error`).  The model
is a recursive-descent parser into a small AST — compilation fails
(`none`, the model of `re.error`) on malformed syntax such as an
unclosed character class or group, a dangling escape or a quantifier
with nothing to repeat — and a backtracking matcher with Python's
preference order (leftmost, greedy, left alternative first),
counting non-overlapping matches left to right with empty matches
advancing one position.  Supported syntax: literals, `.`, escapes
(`\d \w \s \D \W \S`, control escapes, escaped punctuation), character
classes with ranges and negation, groups `( )` and `(?: )`,
alternation `|`, quantifiers `* + ?`, anchors `^ $` (with their
MULTILINE meaning, the flag the code always passes). -/

/-- Character-class items: single character, range, or a `\d`/`\w`/`\s`
shorthand (`inv` selects the complemented shorthand). -/
inductive ClsItem where
  | ch (c : Char)
  | range (a b : Char)
  | digit
  | word
  | space
  deriving DecidableEq, Repr

/-- Regex AST. -/
inductive RE where
  | eps
  | chr (c : Char)
  | any
  | cls (neg : Bool) (items : List ClsItem)
  | bol
  | eol
  | seq (a b : RE)
  | alt (a b : RE)
  | star (a : RE)
  deriving DecidableEq, Repr

/-- ASCII lowercasing used for `re.IGNORECASE` comparisons. -/
def lowerAscii (c : Char) : Char :=
  if 65 ≤ c.toNat && c.toNat ≤ 90 then Char.ofNat (c.toNat + 32) else c

/-- ASCII uppercasing used for `re.IGNORECASE` range checks. -/
def upperAscii (c : Char) : Char :=
  if 97 ≤ c.toNat && c.toNat ≤ 122 then Char.ofNat (c.toNat - 32) else c

/-- Character equality, optionally case-insensitive. -/
def charEq (ic : Bool) (x c : Char) : Bool :=
  x = c || (ic && lowerAscii x = lowerAscii c)

/-- Does one class item match a character? -/
def itemMatch (ic : Bool) (x : Char) : ClsItem → Bool
  | .ch c => charEq ic x c
  | .range a b =>
    (a ≤ x && x ≤ b) ||
      (ic && ((a ≤ lowerAscii x && lowerAscii x ≤ b) ||
              (a ≤ upperAscii x && upperAscii x ≤ b)))
  | .digit => x.isDigit
  | .word => x.isAlphanum || x = '_'
  | .space => pyIsSpace x

/-- Does a (possibly negated) class match a character? -/
def clsMatch (ic neg : Bool) (items : List ClsItem) (x : Char) : Bool :=
  let hit := items.any (itemMatch ic x)
  if neg then !hit else hit

/-- Escape of a single character inside a character class. -/
def escClassItem (c : Char) : Option ClsItem :=
  if c = 'd' then some .digit
  else if c = 'w' then some .word
  else if c = 's' then some .space
  else if c = 'n' then some (.ch '\n')
  else if c = 't' then some (.ch '\t')
  else if c = 'r' then some (.ch '\r')
  else if c.isAlpha || c.isDigit then none   -- bad escape / backreference
  else some (.ch c)

/-- Escape of a single character at top level. -/
def escAtom (c : Char) : Option RE :=
  if c = 'd' then some (.cls false [.digit])
  else if c = 'D' then some (.cls true [.digit])
  else if c = 'w' then some (.cls false [.word])
  else if c = 'W' then some (.cls true [.word])
  else if c = 's' then some (.cls false [.space])
  else if c = 'S' then some (.cls true [.space])
  else if c = 'n' then some (.chr '\n')
  else if c = 't' then some (.chr '\t')
  else if c = 'r' then some (.chr '\r')
  else if c.isAlpha || c.isDigit then none   -- bad escape / backreference
  else some (.chr c)

/-- Parse the items of a character class up to the closing `]`;
`none` when the class is never closed (`re.error`). -/
def parseClassItems : List Char → Option (List ClsItem × List Char)
  | [] => none
  | ']' :: rest => some ([], rest)
  | '\\' :: c :: rest =>
    match escClassItem c with
    | none => none
    | some it => (parseClassItems rest).map (fun p => (it :: p.1, p.2))
  | '\\' :: [] => none
  | a :: '-' :: ']' :: rest => some ([.ch a, .ch '-'], rest)
  | a :: '-' :: b :: rest =>
    (parseClassItems rest).map (fun p => (ClsItem.range a b :: p.1, p.2))
  | c :: rest => (parseClassItems rest).map (fun p => (ClsItem.ch c :: p.1, p.2))

/-- Parse a full character class after the opening `[` (leading `^`
negates, a leading `]` is a literal, as in Python). -/
def parseClass (s : List Char) : Option (RE × List Char) :=
  let p := match s with
    | '^' :: r => (true, r)
    | _ => (false, s)
  match p.2 with
  | ']' :: rest =>
    (parseClassItems rest).map (fun q => (RE.cls p.1 (ClsItem.ch ']' :: q.1), q.2))
  | r => (parseClassItems r).map (fun q => (RE.cls p.1 q.1, q.2))

/-- Apply the quantifiers `* + ?` following an atom. -/
def applyQuant (r : RE) : List Char → RE × List Char
  | '*' :: rest => applyQuant (RE.star r) rest
  | '+' :: rest => applyQuant (RE.seq r (RE.star r)) rest
  | '?' :: rest => applyQuant (RE.alt r RE.eps) rest
  | rest => (r, rest)

mutual

/-- Parse an alternation (`|`-separated sequence of concatenations). -/
def parseAlt : Nat → List Char → Option (RE × List Char)
  | 0, _ => none
  | fuel + 1, s =>
    match parseSeq fuel s with
    | none => none
    | some (r, rest) =>
      match rest with
      | '|' :: rest2 =>
        match parseAlt fuel rest2 with
        | some (r2, rest3) => some (.alt r r2, rest3)
        | none => none
      | _ => some (r, rest)

/-- Parse a (possibly empty) concatenation of quantified atoms. -/
def parseSeq : Nat → List Char → Option (RE × List Char)
  | 0, _ => none
  | fuel + 1, s =>
    match s with
    | [] => some (.eps, [])
    | '|' :: _ => some (.eps, s)
    | ')' :: _ => some (.eps, s)
    | _ =>
      match parseAtom fuel s with
      | none => none
      | some (r1, rest) =>
        let q := applyQuant r1 rest
        match parseSeq fuel q.2 with
        | some (r2, rest2) => some (.seq q.1 r2, rest2)
        | none => none

/-- Parse one atom.  A quantifier or a stray `)` with nothing before it
is a syntax error (`re.error`: nothing to repeat / unbalanced paren). -/
def parseAtom : Nat → List Char → Option (RE × List Char)
  | 0, _ => none
  | fuel + 1, s =>
    match s with
    | '(' :: '?' :: ':' :: rest =>
      match parseAlt fuel rest with
      | some (r, ')' :: rest2) => some (r, rest2)
      | _ => none
    | '(' :: '?' :: _ => none
    | '(' :: rest =>
      match parseAlt fuel rest with
      | some (r, ')' :: rest2) => some (r, rest2)
      | _ => none
    | '[' :: rest => parseClass rest
    | '.' :: rest => some (.any, rest)
    | '^' :: rest => some (.bol, rest)
    | '$' :: rest => some (.eol, rest)
    | '\\' :: c :: rest => (escAtom c).map (fun r => (r, rest))
    | '\\' :: [] => none
    | '*' :: _ => none
    | '+' :: _ => none
    | '?' :: _ => none
    | ')' :: _ => none
    | '|' :: _ => none
    | c :: rest => some (.chr c, rest)
    | [] => none

end

/-- Models `re.compile`: `none` is `re.error`.  The whole pattern must be
consumed. -/
def reParse (pattern : String) : Option RE :=
  match parseAlt (2 * pattern.data.length + 4) pattern.data with
  | some (r, []) => some r
  | _ => none

/-- Length of a consumed prefix as far as character `n` back; the
character preceding the new position (for `^`). -/
def prevAfter (prev : Option Char) (s : List Char) (n : Nat) : Option Char :=
  if n = 0 then prev else (s.take n).getLast?

/-- Structural size of a regex (fuel bound for the matcher). -/
def reSize : RE → Nat
  | .eps | .chr _ | .any | .cls _ _ | .bol | .eol => 1
  | .seq a b => reSize a + reSize b + 1
  | .alt a b => reSize a + reSize b + 1
  | .star a => reSize a + 1

/-- Backtracking matcher: all lengths of prefixes of `s` matched by `r`,
in Python's preference order (first element = the match Python picks).
`prev` is the character before the current position (`none` at the start
of the text); `ic` selects IGNORECASE.  Star skips empty-width
repetitions, as Python does to avoid infinite repetition. -/
def mtch : Nat → RE → Bool → Option Char → List Char → List Nat
  | 0, _, _, _, _ => []
  | _ + 1, .eps, _, _, _ => [0]
  | _ + 1, .bol, _, prev, _ =>
    match prev with
    | none => [0]
    | some c => if c = '\n' then [0] else []
  | _ + 1, .eol, _, _, s =>
    match s with
    | [] => [0]
    | c :: _ => if c = '\n' then [0] else []
  | _ + 1, .chr c, ic, _, s =>
    match s with
    | [] => []
    | x :: _ => if charEq ic x c then [1] else []
  | _ + 1, .any, _, _, s =>
    match s with
    | [] => []
    | x :: _ => if x = '\n' then [] else [1]
  | _ + 1, .cls neg items, ic, _, s =>
    match s with
    | [] => []
    | x :: _ => if clsMatch ic neg items x then [1] else []
  | fuel + 1, .seq a b, ic, prev, s =>
    (mtch fuel a ic prev s).flatMap fun n =>
      (mtch fuel b ic (prevAfter prev s n) (s.drop n)).map (n + ·)
  | fuel + 1, .alt a b, ic, prev, s =>
    mtch fuel a ic prev s ++ mtch fuel b ic prev s
  | fuel + 1, .star a, ic, prev, s =>
    (((mtch fuel a ic prev s).filter (· ≠ 0)).flatMap fun n =>
      (mtch fuel (.star a) ic (prevAfter prev s n) (s.drop n)).map (n + ·)) ++ [0]

/-- First (preferred) match length of `r` at the current position. -/
def firstMatchLen (r : RE) (ic : Bool) (prev : Option Char) (s : List Char) :
    Option Nat :=
  (mtch ((s.length + 2) * (reSize r + 2)) r ic prev s).head?

/-- Scan loop of `re.findall`: count matches left to right, skipping past
each match, advancing one character after an empty match or a failure. -/
def findallGo : Nat → RE → Bool → Option Char → List Char → Nat
  | 0, _, _, _, _ => 0
  | fuel + 1, r, ic, prev, s =>
    match firstMatchLen r ic prev s with
    | some 0 =>
      1 + (match s with
           | [] => 0
           | c :: rest => findallGo fuel r ic (some c) rest)
    | some (n + 1) => 1 + findallGo fuel r ic (prevAfter prev s (n + 1)) (s.drop (n + 1))
    | none =>
      match s with
      | [] => 0
      | c :: rest => findallGo fuel r ic (some c) rest

/-- Models `len(re.findall(pattern, text, flags))` for a compiled pattern. -/
def findallCount (r : RE) (ic : Bool) (s : List Char) : Nat :=
  findallGo (s.length + 1) r ic none s

/-! ## Term matching (`classify2.py`) -/

/-- Score threshold for AUTO (`DEFAULT_AUTO_THRESHOLD` in `classify2.py`). -/
def DEFAULT_AUTO_THRESHOLD : Int := 2

/-- Margin threshold (`DEFAULT_REVIEW_GAP` in `classify2.py`). -/
def DEFAULT_REVIEW_GAP : Int := 1

/-- Embeds `parse_term`: strip, then dispatch on the mode prefix
(`re/i:`, `re:`, `ci:`, `na:`, `lit:`; default `lit`), stripping the
payload. -/
def parse_term (term : String) : String × String :=
  let t := pyStrip term
  if strStartsWith t "re/i:" then ("re_i", pyStrip (strDrop t 5))
  else if strStartsWith t "re:" then ("re", pyStrip (strDrop t 3))
  else if strStartsWith t "ci:" then ("ci", pyStrip (strDrop t 3))
  else if strStartsWith t "na:" then ("na", pyStrip (strDrop t 3))
  else if strStartsWith t "lit:" then ("lit", pyStrip (strDrop t 4))
  else ("lit", t)

/-- The double-quote character. -/
def dquote : Char := Char.ofNat 34

/-- The single-quote character. -/
def squote : Char := Char.ofNat 39

/-- Whether a string starts with a given character. -/
def startsWithC (s : String) (c : Char) : Bool :=
  match s.data with
  | [] => false
  | x :: _ => x = c

/-- Whether a string ends with a given character. -/
def endsWithC (s : String) (c : Char) : Bool :=
  match s.data.getLast? with
  | none => false
  | some x => x = c

/-- Models Python slicing `t[1:-1]`. -/
def strSlice1m1 (s : String) : String := String.mk ((s.data.drop 1).dropLast)

/-- Embeds `unquote_if_needed`: strip, then remove a surrounding quote
pair.  As in Python, a lone quote character both starts and ends with a
quote, so it is sliced down to the empty string. -/
def unquote_if_needed (t : String) : String :=
  let u := pyStrip t
  if (startsWithC u dquote && endsWithC u dquote) ||
      (startsWithC u squote && endsWithC u squote) then
    strSlice1m1 u
  else u

/-- Embeds `count_literal`: normalize both operands in the same mode and
count substring occurrences; an empty normalized needle counts zero. -/
def count_literal (text needle : String) (casefold strip_acc : Bool) : Int :=
  let tn := normalize text casefold strip_acc
  let nn := normalize needle casefold strip_acc
  if nn = "" then 0 else pyCount tn nn

/-- The fallible body of `count_regex` (`re.findall` may raise
`re.error`): compile the pattern and count matches. -/
def re_findallE (pattern text : String) (ic : Bool) : Except String Int :=
  match reParse pattern with
  | none => Except.error "re.error"
  | some r => Except.ok (findallCount r ic text.data : Nat)

/-- Embeds `count_regex`: empty pattern counts zero; the `try/except
re.error` turns a compilation failure into a zero count. -/
def count_regex (text pattern : String) (ignore_case : Bool) : Int :=
  if pattern = "" then 0
  else
    match re_findallE pattern text ignore_case with
    | Except.ok n => n
    | Except.error _ => 0

/-- Embeds `term_match_count`: parse the term into mode and payload,
unquote the payload, then dispatch: regex modes match against the
cleaned text; `ci`/`na` are literal with casefold (and accent stripping
for `na`); the default `lit` mode counts the cleaned payload in the
cleaned text, zero when the cleaned payload is empty. -/
def term_match_count (text term : String) : Int :=
  let mode := (parse_term term).1
  let payload := unquote_if_needed (parse_term term).2
  if mode = "re" then count_regex (_clean_unicode_common text) payload false
  else if mode = "re_i" then count_regex (_clean_unicode_common text) payload true
  else if mode = "ci" then count_literal text payload true false
  else if mode = "na" then count_literal text payload true true
  else
    let t := _clean_unicode_common text
    let n := _clean_unicode_common payload
    if n = "" then 0 else pyCount t n

/-! ## Scoring and decision (`best_two_categories` and `main`) -/

/-- One step of the score/hits loop of `best_two_categories`: counts with
`c > 0` accumulate into the score and append a `term(c)` hit. -/
def scoreStep (text : String) (acc : Int × List String) (term : String) :
    Int × List String :=
  let c := term_match_count text term
  if c > 0 then (acc.1 + c, acc.2 ++ [term ++ "(" ++ toString c ++ ")"])
  else acc

/-- The per-category loop of `best_two_categories`: aggregate score and
the ", "-joined audit trail of nonzero hits, in term order. -/
def category_score_hits (text : String) (terms : List String) : Int × String :=
  let p := terms.foldl (scoreStep text) (0, [])
  (p.1, String.intercalate ", " p.2)

/-- Scored entry: `(category, score, hits)`. -/
abbrev Scored := String × Int × String

/-- Stable descending insertion: an element coming from earlier in the
list goes before every later element of equal score. -/
def insertDesc (x : Scored) : List Scored → List Scored
  | [] => [x]
  | y :: ys => if x.2.1 ≥ y.2.1 then x :: y :: ys else y :: insertDesc x ys

/-- Models `scored.sort(key=lambda x: x[1], reverse=True)`: Python's sort
is stable, and this insertion sort computes exactly the stable
descending-by-score permutation. -/
def sortDesc : List Scored → List Scored
  | [] => []
  | x :: xs => insertDesc x (sortDesc xs)

/-- The scored list built by `best_two_categories`, in rule order. -/
def scoredList (text : String) (rules : List (String × List String)) :
    List Scored :=
  rules.map fun p =>
    let sh := category_score_hits text p.2
    (p.1, sh.1, sh.2)

/-- The sorted ranking of `best_two_categories`. -/
def ranking (text : String) (rules : List (String × List String)) :
    List Scored :=
  sortDesc (scoredList text rules)

/-- Embeds `best_two_categories`: the two top entries of the ranking,
with `("UNKNOWN", 0, "")` filling a missing first or second position. -/
def best_two_categories (text : String) (rules : List (String × List String)) :
    Scored × Scored :=
  let sorted := ranking text rules
  (sorted.headD ("UNKNOWN", 0, ""), (sorted.drop 1).headD ("UNKNOWN", 0, ""))

/-- One output row of `main` (the per-document fields it writes; CSV
renders every field as a string). -/
structure OutRow where
  label : String
  score : String
  hits : String
  top2_label : String
  top2_score : String
  decision : String
  deriving DecidableEq, Repr

/-- Embeds the per-document body of `main`: empty/whitespace-only raw
text short-circuits to the `NO_TEXT` row before any scoring; otherwise
score, rank, and decide `AUTO` exactly when the top score reaches the
threshold, leads the runner-up by more than the gap, and is not
`UNKNOWN`. -/
def classify_row (text : String) (rules : List (String × List String)) :
    OutRow :=
  if pyStrip text = "" then
    ⟨"NO_TEXT", "0", "", "", "", "NEEDS_OCR_OR_BETTER_EXTRACT"⟩
  else
    let bt := best_two_categories text rules
    let c1 := bt.1.1
    let s1 := bt.1.2.1
    let h1 := bt.1.2.2
    let c2 := bt.2.1
    let s2 := bt.2.2.1
    let decision :=
      if s1 ≥ DEFAULT_AUTO_THRESHOLD ∧ s1 - s2 > DEFAULT_REVIEW_GAP ∧
          c1 ≠ "UNKNOWN" then "AUTO"
      else "REVIEW"
    ⟨c1, toString s1, h1, c2, toString s2, decision⟩

/-! ## Rule loading (`load_rules` and the `main` precondition) -/

/-- Parse one line of `rules.txt`: `none` for a line that is skipped
(blank after strip, comment, or no `:`), otherwise the stripped
category name (possibly empty) and the stripped non-empty terms. -/
def lineDef (line : String) : Option (String × List String) :=
  let l := pyStrip line
  if l = "" then none
  else if strStartsWith l "#" then none
  else
    match splitFirst ':' l.data with
    | none => none
    | some (pre, post) =>
      let cat := pyStrip (String.mk pre)
      let terms :=
        ((splitOnChar ';' post).map fun t => pyStrip (String.mk t)).filter
          (fun t => t ≠ "")
      some (cat, terms)

/-- Models Python `dict` assignment `rules[cat] = terms`: replace the
value at an existing key in place, else append. -/
def dictInsert (m : List (String × List String)) (k : String)
    (v : List String) : List (String × List String) :=
  match m with
  | [] => [(k, v)]
  | (k', v') :: rest =>
    if k' = k then (k, v) :: rest else (k', v') :: dictInsert rest k v

/-- Models Python `dict` lookup `rules.get(cat)`. -/
def dictLookup (m : List (String × List String)) (k : String) :
    Option (List String) :=
  match m with
  | [] => none
  | (k', v') :: rest => if k' = k then some v' else dictLookup rest k

/-- The per-line step of `load_rules`. -/
def loadStep (m : List (String × List String)) (line : String) :
    List (String × List String) :=
  match lineDef line with
  | none => m
  | some p => dictInsert m p.1 p.2

/-- Embeds the loop of `load_rules` over the lines of the file. -/
def load_rules_lines (lines : List String) : List (String × List String) :=
  lines.foldl loadStep []

/-- Embeds `load_rules` on the text of `rules.txt`. -/
def load_rules (s : String) : List (String × List String) :=
  load_rules_lines (pySplitlines s)

/-- The `main` precondition on the loaded rules: empty is fatal
(`SystemExit("rules.txt sem regras válidas.")`). -/
def rules_check (rules : List (String × List String)) :
    Except String (List (String × List String)) :=
  if rules = [] then Except.error "rules.txt sem regras válidas." else Except.ok rules

/-- Specification-side predicate: the lines `load_rules` processes
(not blank after strip, not a comment, containing a separator).  Lines
where this is false are the ones the spec calls skipped. -/
def lineKept (line : String) : Bool :=
  !(pyStrip line == "") && !(strStartsWith (pyStrip line) "#") &&
    (splitFirst ':' (pyStrip line).data).isSome

/-- One step of the specification-side "last definition wins" fold. -/
def lastStep (c : String) (acc : Option (List String)) (line : String) :
    Option (List String) :=
  match lineDef line with
  | some p => if p.1 = c then some p.2 else acc
  | none => acc

/-- Specification-side description of last-one-wins: the term list of the
last non-skipped line defining category `c`, if any. -/
def lastDefTerms (lines : List String) (c : String) : Option (List String) :=
  lines.foldl (lastStep c) none

/-! ## Predicates used in the idempotence analysis of the cleaner -/

/-- No hyphen is immediately followed by whitespace
(nothing for `re.sub(r"-\s+", "")` to do). -/
def noHW : List Char → Prop
  | [] => True
  | c :: cs => (c = '-' → firstIsWs cs = false) ∧ noHW cs

/-- Every whitespace character is a single space not followed by more
whitespace (nothing for `re.sub(r"\s+", " ")` to change). -/
def sglWs : List Char → Prop
  | [] => True
  | c :: cs => (pyIsSpace c = true → c = ' ' ∧ firstIsWs cs = false) ∧ sglWs cs

/-- All characters are ASCII. -/
def asciiL (l : List Char) : Prop := ∀ c ∈ l, c.toNat < 128

instance asciiL_decidable (l : List Char) : Decidable (asciiL l) :=
  inferInstanceAs (Decidable (∀ c ∈ l, c.toNat < 128))

end Classify2

namespace Classify2

/-! ## Lemmas: whitespace primitives -/

theorem firstIsWs_dropWs (l : List Char) : firstIsWs (dropWs l) = false := by
  induction l with
  | nil => rfl
  | cons c cs ih =>
    simp only [dropWs]
    by_cases h : pyIsSpace c = true
    · simpa [h] using ih
    · simp [firstIsWs, h]

theorem dropWs_of_firstIsWs_false (l : List Char) (h : firstIsWs l = false) :
    dropWs l = l := by
  cases l with
  | nil => rfl
  | cons c cs => simp_all [dropWs, firstIsWs]

theorem firstIsWs_of_rstripL (l : List Char) (h : firstIsWs (rstripL l) = true) :
    firstIsWs l = true := by
  cases l with
  | nil => exact h
  | cons c cs =>
    simp only [rstripL] at h
    by_cases hc : rstripL cs = [] ∧ pyIsSpace c = true
    · rw [if_pos (by simpa using hc)] at h
      exact absurd h (by simp [firstIsWs])
    · rw [if_neg (by simpa using hc)] at h
      simpa [firstIsWs] using h

theorem rstripL_idem (l : List Char) : rstripL (rstripL l) = rstripL l := by
  induction l with
  | nil => rfl
  | cons c cs ih =>
    simp only [rstripL]
    by_cases hc : rstripL cs = [] ∧ pyIsSpace c = true
    · rw [if_pos (by simpa using hc)]
      rfl
    · rw [if_neg (by simpa using hc)]
      simp only [rstripL, ih]
      rw [if_neg (by simpa using hc)]

/-! ## Lemmas: the de-hyphenation pass -/

theorem dehyphAux_firstIsWs (l : List Char) :
    firstIsWs (dehyphAux true l) = false ∧
      (firstIsWs l = false → firstIsWs (dehyphAux false l) = false) := by
  induction l with
  | nil => exact ⟨rfl, fun _ => rfl⟩
  | cons c cs ih =>
    constructor
    · simp only [dehyphAux]
      by_cases hws : pyIsSpace c = true
      · simpa [hws] using ih.1
      · by_cases hh : c = '-' && firstIsWs cs
        · simp only [hws, Bool.and_false, Bool.false_and, if_false, hh, if_true]
          exact ih.1
        · simp only [hws, Bool.and_false, Bool.false_and, if_false, hh, if_false]
          simp [firstIsWs, hws]
    · intro hl
      cases hc : firstIsWs (c :: cs) with
      | true => rw [hc] at hl; cases hl
      | false =>
        have hws : pyIsSpace c = false := by simpa [firstIsWs] using hc
        simp only [dehyphAux, Bool.false_and, if_false]
        by_cases hh : c = '-' && firstIsWs cs
        · simp only [hh, if_true]
          exact ih.1
        · simp only [hh, if_false]
          simp [firstIsWs, hws]

theorem noHW_dehyphAux (l : List Char) (skip : Bool) :
    noHW (dehyphAux skip l) := by
  induction l generalizing skip with
  | nil => trivial
  | cons c cs ih =>
    simp only [dehyphAux]
    by_cases h1 : skip && pyIsSpace c
    · simp only [h1, if_true]
      exact ih true
    · simp only [h1, if_false]
      by_cases h2 : c = '-' && firstIsWs cs
      · simp only [h2, if_true]
        exact ih true
      · simp only [h2, if_false, noHW]
        refine ⟨fun hc => ?_, ih false⟩
        have hws : firstIsWs cs = false := by
          by_contra hws
          exact h2 (by simp [hc, Bool.not_eq_true] at hws ⊢; simpa using hws)
        exact (dehyphAux_firstIsWs cs).2 hws

theorem dehyphAux_of_noHW (l : List Char) (h : noHW l) : dehyphAux false l = l := by
  induction l with
  | nil => rfl
  | cons c cs ih =>
    obtain ⟨hc, hcs⟩ := h
    simp only [dehyphAux, Bool.false_and, if_false]
    have h2 : (c = '-' && firstIsWs cs) = false := by
      by_cases hc' : c = '-'
      · simp [hc' , hc hc']
      · simp [hc']
    simp [h2, ih hcs]

/-! ## Lemmas: the whitespace-collapsing pass -/

theorem collapseAux_true_firstIsWs (l : List Char) :
    firstIsWs (collapseAux true l) = false := by
  induction l with
  | nil => rfl
  | cons c cs ih =>
    simp only [collapseAux]
    by_cases h : pyIsSpace c = true
    · simpa [h] using ih
    · simp [h, firstIsWs]

theorem collapseAux_false_firstIsWs (l : List Char) (h : firstIsWs l = false) :
    firstIsWs (collapseAux false l) = false := by
  cases l with
  | nil => rfl
  | cons c cs =>
    have hws : pyIsSpace c = false := by simpa [firstIsWs] using h
    simp [collapseAux, hws, firstIsWs]

theorem sglWs_collapseAux (l : List Char) (b : Bool) : sglWs (collapseAux b l) := by
  induction l generalizing b with
  | nil => trivial
  | cons c cs ih =>
    by_cases h : pyIsSpace c = true
    · cases b with
      | true =>
        have hb : collapseAux true (c :: cs) = collapseAux true cs := by
          simp [collapseAux, h]
        rw [hb]
        exact ih true
      | false =>
        have hb : collapseAux false (c :: cs) = ' ' :: collapseAux true cs := by
          simp [collapseAux, h]
        rw [hb]
        exact ⟨fun _ => ⟨rfl, collapseAux_true_firstIsWs cs⟩, ih true⟩
    · have hb : collapseAux b (c :: cs) = c :: collapseAux false cs := by
        simp [collapseAux, h]
      rw [hb]
      exact ⟨fun hc => absurd hc h, ih false⟩

theorem collapseAux_true_of_firstIsWs_false (l : List Char)
    (h : firstIsWs l = false) : collapseAux true l = collapseAux false l := by
  cases l with
  | nil => rfl
  | cons c cs =>
    have hws : pyIsSpace c = false := by simpa [firstIsWs] using h
    simp [collapseAux, hws]

theorem collapseAux_of_sglWs (l : List Char) (h : sglWs l) :
    collapseAux false l = l := by
  induction l with
  | nil => rfl
  | cons c cs ih =>
    obtain ⟨hc, hcs⟩ := h
    by_cases hws : pyIsSpace c = true
    · obtain ⟨hsp, hnext⟩ := hc hws
      have hb : collapseAux false (c :: cs) = ' ' :: collapseAux true cs := by
        simp [collapseAux, hws]
      rw [hb, collapseAux_true_of_firstIsWs_false cs hnext, ih hcs, hsp]
    · have hb : collapseAux false (c :: cs) = c :: collapseAux false cs := by
        simp [collapseAux, hws]
      rw [hb, ih hcs]

theorem noHW_collapseAux (l : List Char) (b : Bool) (h : noHW l) :
    noHW (collapseAux b l) := by
  induction l generalizing b with
  | nil => trivial
  | cons c cs ih =>
    obtain ⟨hc, hcs⟩ := h
    by_cases hws : pyIsSpace c = true
    · cases b with
      | true =>
        have hb : collapseAux true (c :: cs) = collapseAux true cs := by
          simp [collapseAux, hws]
        rw [hb]
        exact ih true hcs
      | false =>
        have hb : collapseAux false (c :: cs) = ' ' :: collapseAux true cs := by
          simp [collapseAux, hws]
        rw [hb]
        exact ⟨fun hsp => absurd hsp (by decide), ih true hcs⟩
    · have hb : collapseAux b (c :: cs) = c :: collapseAux false cs := by
        simp [collapseAux, hws]
      rw [hb]
      exact ⟨fun hc' => collapseAux_false_firstIsWs cs (hc hc'), ih false hcs⟩

/-! ## Lemmas: predicate preservation by the strip passes -/

theorem noHW_dropWs (l : List Char) (h : noHW l) : noHW (dropWs l) := by
  induction l with
  | nil => trivial
  | cons c cs ih =>
    obtain ⟨hc, hcs⟩ := h
    by_cases hws : pyIsSpace c = true
    · rw [show dropWs (c :: cs) = dropWs cs by simp [dropWs, hws]]
      exact ih hcs
    · rw [show dropWs (c :: cs) = c :: cs by simp [dropWs, hws]]
      exact ⟨hc, hcs⟩

theorem sglWs_dropWs (l : List Char) (h : sglWs l) : sglWs (dropWs l) := by
  induction l with
  | nil => trivial
  | cons c cs ih =>
    obtain ⟨hc, hcs⟩ := h
    by_cases hws : pyIsSpace c = true
    · rw [show dropWs (c :: cs) = dropWs cs by simp [dropWs, hws]]
      exact ih hcs
    · rw [show dropWs (c :: cs) = c :: cs by simp [dropWs, hws]]
      exact ⟨hc, hcs⟩

theorem noHW_rstripL (l : List Char) (h : noHW l) : noHW (rstripL l) := by
  induction l with
  | nil => trivial
  | cons c cs ih =>
    obtain ⟨hc, hcs⟩ := h
    simp only [rstripL]
    by_cases hb : rstripL cs = [] ∧ pyIsSpace c = true
    · rw [if_pos (by simpa using hb)]
      trivial
    · rw [if_neg (by simpa using hb)]
      refine ⟨fun hc' => ?_, ih hcs⟩
      cases hfw : firstIsWs (rstripL cs) with
      | false => rfl
      | true => exact absurd (firstIsWs_of_rstripL cs hfw) (by simp [hc hc'])

theorem sglWs_rstripL (l : List Char) (h : sglWs l) : sglWs (rstripL l) := by
  induction l with
  | nil => trivial
  | cons c cs ih =>
    obtain ⟨hc, hcs⟩ := h
    simp only [rstripL]
    by_cases hb : rstripL cs = [] ∧ pyIsSpace c = true
    · rw [if_pos (by simpa using hb)]
      trivial
    · rw [if_neg (by simpa using hb)]
      refine ⟨fun hws => ⟨(hc hws).1, ?_⟩, ih hcs⟩
      cases hfw : firstIsWs (rstripL cs) with
      | false => rfl
      | true => exact absurd (firstIsWs_of_rstripL cs hfw) (by simp [(hc hws).2])

/-! ## Lemmas: character membership and ASCII preservation -/

theorem mem_dropWs (l : List Char) (c : Char) (h : c ∈ dropWs l) : c ∈ l := by
  induction l with
  | nil => simp [dropWs] at h
  | cons x xs ih =>
    by_cases hws : pyIsSpace x = true
    · rw [show dropWs (x :: xs) = dropWs xs by simp [dropWs, hws]] at h
      exact List.mem_cons_of_mem x (ih h)
    · rwa [show dropWs (x :: xs) = x :: xs by simp [dropWs, hws]] at h

theorem mem_rstripL (l : List Char) (c : Char) (h : c ∈ rstripL l) : c ∈ l := by
  induction l with
  | nil => simp [rstripL] at h
  | cons x xs ih =>
    simp only [rstripL] at h
    by_cases hb : rstripL xs = [] ∧ pyIsSpace x = true
    · rw [if_pos (by simpa using hb)] at h
      simp at h
    · rw [if_neg (by simpa using hb)] at h
      rcases List.mem_cons.mp h with h | h
      · exact h ▸ List.mem_cons_self x xs
      · exact List.mem_cons_of_mem x (ih h)

theorem mem_dehyphAux (l : List Char) (skip : Bool) (c : Char)
    (h : c ∈ dehyphAux skip l) : c ∈ l := by
  induction l generalizing skip with
  | nil => simp [dehyphAux] at h
  | cons x xs ih =>
    simp only [dehyphAux] at h
    by_cases h1 : skip && pyIsSpace x
    · rw [if_pos h1] at h
      exact List.mem_cons_of_mem x (ih true h)
    · rw [if_neg h1] at h
      by_cases h2 : x = '-' && firstIsWs xs
      · rw [if_pos h2] at h
        exact List.mem_cons_of_mem x (ih true h)
      · rw [if_neg h2] at h
        rcases List.mem_cons.mp h with h | h
        · exact h ▸ List.mem_cons_self x xs
        · exact List.mem_cons_of_mem x (ih false h)

theorem mem_collapseAux (l : List Char) (b : Bool) (c : Char)
    (h : c ∈ collapseAux b l) : c ∈ l ∨ c = ' ' := by
  induction l generalizing b with
  | nil => simp [collapseAux] at h
  | cons x xs ih =>
    simp only [collapseAux] at h
    by_cases hws : pyIsSpace x = true
    · rw [if_pos hws] at h
      cases b with
      | true =>
        rw [if_pos rfl] at h
        rcases ih true h with h | h
        · exact Or.inl (List.mem_cons_of_mem x h)
        · exact Or.inr h
      | false =>
        rw [if_neg (by simp)] at h
        rcases List.mem_cons.mp h with h | h
        · exact Or.inr h
        · rcases ih true h with h | h
          · exact Or.inl (List.mem_cons_of_mem x h)
          · exact Or.inr h
    · rw [if_neg (by simpa using hws)] at h
      rcases List.mem_cons.mp h with h | h
      · exact Or.inl (h ▸ List.mem_cons_self x xs)
      · rcases ih false h with h | h
        · exact Or.inl (List.mem_cons_of_mem x h)
        · exact Or.inr h

theorem asciiL_stripPasses (l : List Char) (h : asciiL l) :
    asciiL (rstripL (dropWs (collapseAux false (dehyphAux false l)))) := by
  intro c hc
  have hc2 := mem_dropWs _ _ (mem_rstripL _ _ hc)
  rcases mem_collapseAux _ _ _ hc2 with h3 | h3
  · exact h c (mem_dehyphAux _ _ _ h3)
  · rw [h3]; decide

/-! ## Lemmas: the Unicode stages are the identity on ASCII input -/

theorem charDecompNFKC_ascii (c : Char) (h : c.toNat < 128) :
    charDecompNFKC c = [c] := by
  have htab : ∀ e ∈ decompTable, 128 ≤ e.1.toNat := by decide
  have hfind : decompTable.find? (fun e => e.1 == c) = none := by
    rw [List.find?_eq_none]
    intro e he
    have := htab e he
    simp only [beq_iff_eq]
    intro hcontr
    rw [hcontr] at this
    omega
  simp [charDecompNFKC, hfind]

theorem compLookup_ascii (a b : Char) (h : b.toNat < 128) :
    compLookup a b = none := by
  have htab : ∀ e ∈ compTable, 128 ≤ e.1.2.toNat := by decide
  have hfind : compTable.find? (fun e => e.1.1 == a && e.1.2 == b) = none := by
    rw [List.find?_eq_none]
    intro e he
    have := htab e he
    simp only [Bool.and_eq_true, beq_iff_eq, not_and]
    intro _ hcontr
    rw [hcontr] at this
    omega
  simp [compLookup, hfind]

theorem composeAux_ascii (l : List Char) (a : Char) (h : asciiL (a :: l)) :
    composeAux a l = a :: l := by
  induction l generalizing a with
  | nil => rfl
  | cons b rest ih =>
    have hb : b.toNat < 128 := h b (by simp)
    rw [show composeAux a (b :: rest) = a :: composeAux b rest by
      simp [composeAux, compLookup_ascii a b hb]]
    rw [ih b (fun c hc => h c (List.mem_cons_of_mem a hc))]

theorem nfkcL_ascii (l : List Char) (h : asciiL l) : nfkcL l = l := by
  have hflat : l.flatMap charDecompNFKC = l := by
    induction l with
    | nil => rfl
    | cons c cs ih =>
      rw [List.flatMap_cons, charDecompNFKC_ascii c (h c (by simp)),
        ih (fun x hx => h x (List.mem_cons_of_mem c hx))]
      rfl
  rw [nfkcL, hflat]
  cases l with
  | nil => rfl
  | cons a rest => exact composeAux_ascii rest a h

theorem removeInvisibles_ascii (l : List Char) (h : asciiL l) :
    removeInvisibles l = l := by
  induction l with
  | nil => rfl
  | cons c cs ih =>
    have hc : c.toNat < 128 := h c (by simp)
    have htab : ∀ e ∈ invisibleChars, 128 ≤ e.toNat := by decide
    have hmem : c ∉ invisibleChars := fun hm => absurd (htab c hm) (by omega)
    rw [removeInvisibles, List.filter_cons, if_pos (by simpa using hmem)]
    have := ih (fun x hx => h x (List.mem_cons_of_mem c hx))
    rw [removeInvisibles] at this
    rw [this]

theorem nbspToSpace_ascii (l : List Char) (h : asciiL l) : nbspToSpace l = l := by
  induction l with
  | nil => rfl
  | cons c cs ih =>
    have hc : c.toNat < 128 := h c (by simp)
    have hne : ¬(c = cNBSP) := by
      intro hcontr
      rw [hcontr] at hc
      revert hc
      decide
    rw [nbspToSpace, List.map_cons, if_neg hne]
    have := ih (fun x hx => h x (List.mem_cons_of_mem c hx))
    rw [nbspToSpace] at this
    rw [this]

/-! ## The cleaner on ASCII input -/

theorem cleanL_ascii_eq (l : List Char) (h : asciiL l) :
    cleanL l = rstripL (dropWs (collapseWs (dehyph l))) := by
  rw [cleanL, nfkcL_ascii l h, removeInvisibles_ascii l h, nbspToSpace_ascii l h]

theorem asciiL_cleanL (l : List Char) (h : asciiL l) : asciiL (cleanL l) := by
  rw [cleanL_ascii_eq l h]
  exact asciiL_stripPasses l h

theorem cleanL_idem_ascii (l : List Char) (h : asciiL l) :
    cleanL (cleanL l) = cleanL l := by
  have hy := asciiL_cleanL l h
  have hyd : cleanL l = rstripL (dropWs (collapseWs (dehyph l))) :=
    cleanL_ascii_eq l h
  have hnoHW : noHW (cleanL l) := by
    rw [hyd]
    exact noHW_rstripL _ (noHW_dropWs _
      (noHW_collapseAux _ false (noHW_dehyphAux l false)))
  have hsgl : sglWs (cleanL l) := by
    rw [hyd]
    exact sglWs_rstripL _ (sglWs_dropWs _ (sglWs_collapseAux _ false))
  have hfw : firstIsWs (cleanL l) = false := by
    rw [hyd]
    cases hfw : firstIsWs (rstripL (dropWs (collapseWs (dehyph l)))) with
    | false => rfl
    | true =>
      have := firstIsWs_of_rstripL _ hfw
      rw [firstIsWs_dropWs] at this
      cases this
  rw [cleanL_ascii_eq _ hy]
  rw [show dehyph (cleanL l) = cleanL l from dehyphAux_of_noHW _ hnoHW]
  rw [show collapseWs (cleanL l) = cleanL l from collapseAux_of_sglWs _ hsgl]
  rw [dropWs_of_firstIsWs_false _ hfw]
  rw [hyd, rstripL_idem]

/-! ## Lemmas: the stable descending sort -/

theorem mem_insertDesc (x y : Scored) (l : List Scored) :
    y ∈ insertDesc x l ↔ y = x ∨ y ∈ l := by
  induction l with
  | nil => simp [insertDesc]
  | cons z zs ih =>
    simp only [insertDesc]
    by_cases h : x.2.1 ≥ z.2.1
    · simp [h, List.mem_cons]
    · simp only [h, if_false, List.mem_cons, ih]
      tauto

theorem pairwise_insertDesc (x : Scored) (l : List Scored)
    (h : List.Pairwise (fun a b : Scored => b.2.1 ≤ a.2.1) l) :
    List.Pairwise (fun a b : Scored => b.2.1 ≤ a.2.1) (insertDesc x l) := by
  induction l with
  | nil => simp [insertDesc]
  | cons z zs ih =>
    rw [List.pairwise_cons] at h
    obtain ⟨hz, hzs⟩ := h
    simp only [insertDesc]
    by_cases hx : x.2.1 ≥ z.2.1
    · rw [if_pos hx, List.pairwise_cons]
      refine ⟨fun b hb => ?_, List.pairwise_cons.mpr ⟨hz, hzs⟩⟩
      rcases List.mem_cons.mp hb with hb | hb
      · rw [hb]; exact hx
      · exact le_trans (hz b hb) hx
    · rw [if_neg hx, List.pairwise_cons]
      refine ⟨fun b hb => ?_, ih hzs⟩
      rcases (mem_insertDesc x b zs).mp hb with hb | hb
      · rw [hb]; omega
      · exact hz b hb

theorem pairwise_sortDesc (l : List Scored) :
    List.Pairwise (fun a b : Scored => b.2.1 ≤ a.2.1) (sortDesc l) := by
  induction l with
  | nil => simp [sortDesc]
  | cons x xs ih => exact pairwise_insertDesc x (sortDesc xs) ih

theorem sortDesc_of_all_zero (l : List Scored) (h : ∀ x ∈ l, x.2.1 = 0) :
    sortDesc l = l := by
  induction l with
  | nil => rfl
  | cons x xs ih =>
    rw [sortDesc, ih (fun y hy => h y (List.mem_cons_of_mem x hy))]
    cases xs with
    | nil => rfl
    | cons y ys =>
      have hx : x.2.1 = 0 := h x (by simp)
      have hy : y.2.1 = 0 := h y (by simp)
      rw [insertDesc, if_pos (by omega)]

/-! ## Lemmas: scores -/

theorem pyCount_nonneg (hay nee : String) : 0 ≤ pyCount hay nee := by
  rw [pyCount]
  by_cases h : nee = ""
  · rw [if_pos h]; positivity
  · rw [if_neg h]; positivity

theorem count_regex_nonneg (text pattern : String) (ic : Bool) :
    0 ≤ count_regex text pattern ic := by
  rw [count_regex]
  by_cases h : pattern = ""
  · rw [if_pos h]
  · rw [if_neg h, re_findallE]
    cases reParse pattern with
    | none => simp
    | some r => simp

theorem count_literal_nonneg (text needle : String) (cf sa : Bool) :
    0 ≤ count_literal text needle cf sa := by
  rw [count_literal]
  by_cases h : normalize needle cf sa = ""
  · rw [if_pos h]
  · rw [if_neg h]; exact pyCount_nonneg _ _

theorem term_match_count_nonneg (text term : String) :
    0 ≤ term_match_count text term := by
  rw [term_match_count]
  by_cases h1 : (parse_term term).1 = "re"
  · rw [if_pos h1]; exact count_regex_nonneg _ _ _
  rw [if_neg h1]
  by_cases h2 : (parse_term term).1 = "re_i"
  · rw [if_pos h2]; exact count_regex_nonneg _ _ _
  rw [if_neg h2]
  by_cases h3 : (parse_term term).1 = "ci"
  · rw [if_pos h3]; exact count_literal_nonneg _ _ _ _
  rw [if_neg h3]
  by_cases h4 : (parse_term term).1 = "na"
  · rw [if_pos h4]; exact count_literal_nonneg _ _ _ _
  rw [if_neg h4]
  by_cases h5 :
      _clean_unicode_common (unquote_if_needed (parse_term term).2) = ""
  · rw [if_pos h5]
  · rw [if_neg h5]; exact pyCount_nonneg _ _

theorem foldl_scoreStep_nonneg (text : String) (terms : List String)
    (acc : Int × List String) (h : 0 ≤ acc.1) :
    0 ≤ (terms.foldl (scoreStep text) acc).1 := by
  induction terms generalizing acc with
  | nil => exact h
  | cons t ts ih =>
    rw [List.foldl_cons]
    apply ih
    rw [scoreStep]
    by_cases hc : term_match_count text t > 0
    · rw [if_pos hc]; dsimp only; omega
    · rw [if_neg hc]; exact h

theorem scoreStep_of_zero (text : String) (acc : Int × List String)
    (term : String) (h : term_match_count text term = 0) :
    scoreStep text acc term = acc := by
  rw [scoreStep, if_neg (by omega)]

theorem category_score_hits_zero (text : String) (terms : List String)
    (h : ∀ t ∈ terms, term_match_count text t = 0) :
    category_score_hits text terms = (0, "") := by
  have hfold : terms.foldl (scoreStep text) (0, []) = ((0 : Int), ([] : List String)) := by
    induction terms with
    | nil => rfl
    | cons t ts ih =>
      rw [List.foldl_cons, scoreStep_of_zero text _ t (h t (by simp))]
      exact ih (fun t' ht' => h t' (List.mem_cons_of_mem t ht'))
  rw [category_score_hits, hfold]
  rfl

/-! ## Lemmas: the rule dictionary -/

theorem dictLookup_dictInsert (m : List (String × List String)) (k : String)
    (v : List String) (c : String) :
    dictLookup (dictInsert m k v) c = if k = c then some v else dictLookup m c := by
  induction m with
  | nil =>
    by_cases h : k = c
    · simp [dictInsert, dictLookup, h]
    · simp [dictInsert, dictLookup, h]
  | cons p rest ih =>
    rw [dictInsert]
    by_cases hk : p.1 = k
    · rw [if_pos hk, dictLookup]
      by_cases hc : k = c
      · rw [if_pos hc, if_pos hc]
      · rw [if_neg hc, if_neg hc, dictLookup, if_neg (by rw [hk]; exact hc)]
    · rw [if_neg hk, dictLookup, ih]
      by_cases hpc : p.1 = c
      · rw [if_pos hpc, if_neg (by rw [← hpc]; exact fun h => hk h.symm),
          dictLookup, if_pos hpc]
      · rw [if_neg hpc, dictLookup, if_neg hpc]

theorem dictLookup_foldl_loadStep (lines : List String)
    (m : List (String × List String)) (c : String) :
    dictLookup (lines.foldl loadStep m) c =
      lines.foldl (lastStep c) (dictLookup m c) := by
  induction lines generalizing m with
  | nil => rfl
  | cons line rest ih =>
    rw [List.foldl_cons, List.foldl_cons, ih]
    have hstep : dictLookup (loadStep m line) c = lastStep c (dictLookup m c) line := by
      rw [loadStep, lastStep]
      cases lineDef line with
      | none => rfl
      | some p => rw [dictLookup_dictInsert]
    rw [hstep]

theorem mem_keys_dictInsert (m : List (String × List String)) (k : String)
    (v : List String) (x : String)
    (h : x ∈ (dictInsert m k v).map Prod.fst) :
    x ∈ m.map Prod.fst ∨ x = k := by
  induction m with
  | nil =>
    rw [dictInsert] at h
    simp only [List.map_cons, List.map_nil, List.mem_singleton] at h
    exact Or.inr h
  | cons p rest ih =>
    rw [dictInsert] at h
    by_cases hk : p.1 = k
    · rw [if_pos hk] at h
      simp only [List.map_cons, List.mem_cons] at h
      rcases h with h | h
      · exact Or.inr h
      · exact Or.inl (by simp only [List.map_cons, List.mem_cons]; exact Or.inr h)
    · rw [if_neg hk] at h
      simp only [List.map_cons, List.mem_cons] at h
      rcases h with h | h
      · exact Or.inl (by simp only [List.map_cons, List.mem_cons]; exact Or.inl h)
      · rcases ih (by simpa using h) with h | h
        · exact Or.inl (by simp only [List.map_cons, List.mem_cons]; exact Or.inr h)
        · exact Or.inr h

theorem nodup_keys_dictInsert (m : List (String × List String)) (k : String)
    (v : List String) (h : (m.map Prod.fst).Nodup) :
    ((dictInsert m k v).map Prod.fst).Nodup := by
  induction m with
  | nil => simp [dictInsert]
  | cons p rest ih =>
    rw [List.map_cons, List.nodup_cons] at h
    obtain ⟨hp, hrest⟩ := h
    rw [dictInsert]
    by_cases hk : p.1 = k
    · rw [if_pos hk, List.map_cons, List.nodup_cons]
      exact ⟨by rw [← hk]; exact hp, hrest⟩
    · rw [if_neg hk, List.map_cons, List.nodup_cons]
      refine ⟨fun hmem => ?_, ih hrest⟩
      rcases mem_keys_dictInsert rest k v p.1 hmem with hmem | hmem
      · exact hp hmem
      · exact hk hmem

theorem nodup_keys_foldl_loadStep (lines : List String)
    (m : List (String × List String)) (h : (m.map Prod.fst).Nodup) :
    (((lines.foldl loadStep m)).map Prod.fst).Nodup := by
  induction lines generalizing m with
  | nil => exact h
  | cons line rest ih =>
    rw [List.foldl_cons]
    apply ih
    rw [loadStep]
    cases lineDef line with
    | none => exact h
    | some p => exact nodup_keys_dictInsert m p.1 p.2 h

/-! ## Lemmas: line tolerance -/

theorem lineDef_isSome_eq_lineKept (line : String) :
    (lineDef line).isSome = lineKept line := by
  rw [lineDef, lineKept]
  by_cases h1 : pyStrip line = ""
  · simp [h1]
  rw [if_neg h1]
  by_cases h2 : strStartsWith (pyStrip line) "#" = true
  · simp [h1, h2]
  rw [if_neg h2]
  cases h3 : splitFirst ':' (pyStrip line).data with
  | none => simp [h1, h2, h3]
  | some p => simp [h1, h2, h3]

theorem foldl_loadStep_filter (lines : List String)
    (m : List (String × List String)) :
    lines.foldl loadStep m = (lines.filter lineKept).foldl loadStep m := by
  induction lines generalizing m with
  | nil => rfl
  | cons line rest ih =>
    rw [List.foldl_cons, List.filter_cons]
    by_cases hk : lineKept line = true
    · rw [if_pos (by simpa using hk), List.foldl_cons]
      exact ih (loadStep m line)
    · have hnone : lineDef line = none := by
        have := lineDef_isSome_eq_lineKept line
        rw [Bool.not_eq_true] at hk
        rw [hk] at this
        exact Option.not_isSome_iff_eq_none.mp (by rw [this]; simp)
      rw [if_neg (by simpa using hk)]
      rw [show loadStep m line = m by rw [loadStep, hnone]]
      exact ih m

/-- Auxiliary: an invalid pattern makes `count_regex` return zero, the
`try/except re.error` branch. -/
theorem count_regex_of_invalid (text pattern : String) (ic : Bool)
    (h : reParse pattern = none) : count_regex text pattern ic = 0 := by
  rw [count_regex]
  by_cases hp : pattern = ""
  · rw [if_pos hp]
  · rw [if_neg hp, re_findallE, h]

/-! ## Claim theorems -/

/-- C1: for every document with non-empty (not whitespace-only) text and
every non-empty rule repository, with auto_threshold = 2 and
margin_threshold = 1, the decision is AUTO iff the top score satisfies
`s1 >= 2`, the gap satisfies `(s1 - s2) > 1`, and the top category is
not UNKNOWN; in every other case the decision is REVIEW, and in
particular at the exact boundary (`s1 = 2` with margin exactly 1). -/
theorem decision_auto_iff (text : String) (rules : List (String × List String))
    (htext : pyStrip text ≠ "") (_hrules : rules ≠ [])
    (c1 c2 h1 h2 : String) (s1 s2 : Int)
    (hbt : best_two_categories text rules = ((c1, s1, h1), (c2, s2, h2))) :
    ((classify_row text rules).decision = "AUTO" ↔
      (s1 ≥ 2 ∧ s1 - s2 > 1 ∧ c1 ≠ "UNKNOWN")) ∧
    ((classify_row text rules).decision = "REVIEW" ↔
      ¬(s1 ≥ 2 ∧ s1 - s2 > 1 ∧ c1 ≠ "UNKNOWN")) ∧
    (s1 = 2 → s1 - s2 = 1 → (classify_row text rules).decision = "REVIEW") := by
  have hrow : classify_row text rules =
      ⟨c1, toString s1, h1, c2, toString s2,
        if s1 ≥ DEFAULT_AUTO_THRESHOLD ∧ s1 - s2 > DEFAULT_REVIEW_GAP ∧
            c1 ≠ "UNKNOWN" then "AUTO" else "REVIEW"⟩ := by
    rw [classify_row, if_neg htext, hbt]
  rw [hrow]
  simp only [DEFAULT_AUTO_THRESHOLD, DEFAULT_REVIEW_GAP]
  by_cases hcond : s1 ≥ 2 ∧ s1 - s2 > 1 ∧ c1 ≠ "UNKNOWN"
  · rw [if_pos hcond]
    refine ⟨⟨fun _ => hcond, fun _ => rfl⟩,
      ⟨fun hR => absurd hR (by decide), fun hn => absurd hcond hn⟩,
      fun he hm => ?_⟩
    obtain ⟨_, hgt, _⟩ := hcond
    omega
  · rw [if_neg hcond]
    exact ⟨⟨fun hA => absurd hA (by decide), fun hc => absurd hc hcond⟩,
      ⟨fun _ => hcond, fun _ => rfl⟩, fun _ _ => rfl⟩

/-- Witness for C1 at a concrete document and rule set. -/
theorem decision_auto_iff_witness :
    ((classify_row "x" [("A", ["ci:x"])]).decision = "AUTO" ↔
      ((1 : Int) ≥ 2 ∧ (1 : Int) - 0 > 1 ∧ ("A" : String) ≠ "UNKNOWN")) ∧
    ((classify_row "x" [("A", ["ci:x"])]).decision = "REVIEW" ↔
      ¬((1 : Int) ≥ 2 ∧ (1 : Int) - 0 > 1 ∧ ("A" : String) ≠ "UNKNOWN")) ∧
    ((1 : Int) = 2 → (1 : Int) - 0 = 1 →
      (classify_row "x" [("A", ["ci:x"])]).decision = "REVIEW") :=
  decision_auto_iff "x" [("A", ["ci:x"])] (by decide) (by decide)
    "A" "UNKNOWN" "ci:x(1)" "" 1 0 (by decide)

/-- C2 counterexample: with the non-empty repository `{"A": ["ci:zzz"]}`
and text "bar" nothing matches, yet the top-ranked entry returned is
`("A", 0, "")`, not UNKNOWN: the implicit UNKNOWN zero-score entry is
not part of the ranking when the repository is non-empty. -/
theorem unknown_not_ranking_floor_cex :
    (best_two_categories "bar" [("A", ["ci:zzz"])]).1 = ("A", 0, "") ∧
    (("A", 0, "") : Scored) ≠ ("UNKNOWN", 0, "") := by decide

/-- C2 as amended: `("UNKNOWN", 0, "")` only fills missing positions of
the top-two result.  When no term of any category matches, the top
entry is the first-defined category with score 0 and empty hits, and
the runner-up is the second-defined category when one exists, else
UNKNOWN with score 0. -/
theorem unknown_fills_missing_positions (text c₁ : String) (ts₁ : List String)
    (rest : List (String × List String))
    (hz : ∀ p ∈ ((c₁, ts₁) :: rest), ∀ t ∈ p.2, term_match_count text t = 0) :
    best_two_categories text ((c₁, ts₁) :: rest) =
      ((c₁, 0, ""),
        match rest with
        | [] => ("UNKNOWN", 0, "")
        | p :: _ => (p.1, 0, "")) := by
  have hscored : scoredList text ((c₁, ts₁) :: rest) =
      ((c₁, ts₁) :: rest).map (fun p => (p.1, (0 : Int), "")) := by
    rw [scoredList]
    apply List.map_congr_left
    intro p hp
    simp [category_score_hits_zero text p.2 (hz p hp)]
  have hsorted : ranking text ((c₁, ts₁) :: rest) =
      ((c₁, ts₁) :: rest).map (fun p => (p.1, (0 : Int), "")) := by
    rw [ranking, hscored]
    apply sortDesc_of_all_zero
    intro x hx
    rw [List.mem_map] at hx
    obtain ⟨p, _, hpx⟩ := hx
    rw [← hpx]
  rw [best_two_categories, hsorted]
  cases rest with
  | nil => rfl
  | cons p ps => rfl

/-- Witness for the amended C2 at a concrete unmatched document. -/
theorem unknown_fills_missing_positions_witness :
    best_two_categories "bar" [("A", ["ci:zzz"])] =
      (("A", 0, ""), ("UNKNOWN", 0, "")) :=
  unknown_fills_missing_positions "bar" "A" ["ci:zzz"] [] (by decide)

/-- C3: the ranking is sorted descending by score (for every document
and rule repository), and the sort is stable: in Scenario B with rules
`{"A": ["ci:foo"], "B": ["ci:foo"]}` and text "foo foo" both categories
score 2, the tie resolves to definition order (top1 = A, top2 = B), and
the decision is REVIEW because the margin is 0. -/
theorem ranking_sorted_and_ties_stable :
    (∀ text rules, List.Pairwise (fun a b : Scored => b.2.1 ≤ a.2.1)
        (ranking text rules)) ∧
    classify_row "foo foo" [("A", ["ci:foo"]), ("B", ["ci:foo"])] =
      ⟨"A", "2", "ci:foo(2)", "B", "2", "REVIEW"⟩ :=
  ⟨fun _ _ => pairwise_sortDesc _, by decide⟩

/-- C4: a document whose raw text is empty or whitespace-only yields the
`NO_TEXT` / `NEEDS_OCR_OR_BETTER_EXTRACT` row with score 0 and empty
hits, for every rule repository: the result is a constant that does not
depend on the rules, so scoring is never invoked. -/
theorem empty_text_short_circuit (text : String)
    (rules : List (String × List String)) (h : pyStrip text = "") :
    classify_row text rules =
      ⟨"NO_TEXT", "0", "", "", "", "NEEDS_OCR_OR_BETTER_EXTRACT"⟩ := by
  rw [classify_row, if_pos h]

/-- Witness for C4 on a whitespace-only document and non-trivial rules. -/
theorem empty_text_short_circuit_witness :
    pyStrip "  \n " = "" ∧
      classify_row "  \n " [("A", ["ci:x"]), ("B", ["re:["])] =
        ⟨"NO_TEXT", "0", "", "", "", "NEEDS_OCR_OR_BETTER_EXTRACT"⟩ :=
  ⟨by decide, empty_text_short_circuit "  \n " [("A", ["ci:x"]), ("B", ["re:["])]
    (by decide)⟩

/-- C5: a term in a regex mode whose payload does not compile returns a
zero match count and never raises (the `try/except re.error` inside
`count_regex`); in particular `"re:[unclosed"` counts zero on every
text. -/
theorem invalid_regex_zero_count :
    (∀ text term, ((parse_term term).1 = "re" ∨ (parse_term term).1 = "re_i") →
      reParse (unquote_if_needed (parse_term term).2) = none →
      term_match_count text term = 0) ∧
    (∀ text, term_match_count text "re:[unclosed" = 0) := by
  constructor
  · intro text term hmode hinv
    rw [term_match_count]
    rcases hmode with h | h
    · rw [if_pos h]
      exact count_regex_of_invalid _ _ _ hinv
    · have hne : (parse_term term).1 ≠ "re" := by rw [h]; decide
      rw [if_neg hne, if_pos h]
      exact count_regex_of_invalid _ _ _ hinv
  · intro text
    rw [term_match_count]
    rw [if_pos (show (parse_term "re:[unclosed").1 = "re" by decide)]
    exact count_regex_of_invalid _ _ _ (by decide)

/-- Witness for C5 on a concrete invalid pattern (unclosed group). -/
theorem invalid_regex_zero_count_witness :
    term_match_count "abc def" "re:(unclosed" = 0 :=
  invalid_regex_zero_count.1 "abc def" "re:(unclosed" (Or.inl (by decide))
    (by decide)

/-- C6 counterexample: the baseline normalizer is not idempotent on all
strings.  For `"e­́"` (e, soft hyphen, combining acute) the
first clean removes the soft hyphen, juxtaposing `e` with the combining
acute; the second clean's NFKC then composes them into `é`, so
`clean(clean(t)) ≠ clean(t)`. -/
theorem clean_not_idempotent_cex :
    _clean_unicode_common (_clean_unicode_common (String.mk ['e', cSHY, cAcute])) ≠
      _clean_unicode_common (String.mk ['e', cSHY, cAcute]) := by decide

/-- C6 as amended: the baseline normalizer is idempotent on every string
of ASCII characters (where invisible-mark removal cannot create new
composable sequences): `clean(clean(t)) = clean(t)`. -/
theorem clean_idempotent_on_ascii (s : String) (h : asciiL s.data) :
    _clean_unicode_common (_clean_unicode_common s) = _clean_unicode_common s := by
  rw [_clean_unicode_common, _clean_unicode_common,
    show (String.mk (cleanL s.data)).data = cleanL s.data from rfl,
    cleanL_idem_ascii s.data h]

/-- Witness for the amended C6 on a concrete ASCII string exercising
de-hyphenation, collapsing and trimming. -/
theorem clean_idempotent_on_ascii_witness :
    asciiL ("  a-\n b   c  " : String).data ∧
      _clean_unicode_common (_clean_unicode_common "  a-\n b   c  ") =
        _clean_unicode_common "  a-\n b   c  " :=
  ⟨by decide, clean_idempotent_on_ascii "  a-\n b   c  " (by decide)⟩

/-- C7 counterexample: a line with a separator but an empty category
name is NOT skipped: `":x"` loads as the category named `""` with terms
`["x"]` instead of being dropped. -/
theorem empty_category_line_kept_cex :
    load_rules ":x" = [("", ["x"])] ∧ load_rules ":x" ≠ [] := by decide

/-- C7 as amended: rule loading is tolerant per line for blank lines,
comment lines and lines without a separator (they contribute nothing and
do not abort), and the run fails only when the whole definition yields
zero categories; a line with an empty category name is however kept,
defining a category whose name is the empty string. -/
theorem rule_loading_line_tolerance :
    (∀ lines, load_rules_lines lines = load_rules_lines (lines.filter lineKept)) ∧
    (∀ lines, (∃ e, rules_check (load_rules_lines lines) = Except.error e) ↔
      load_rules_lines lines = []) := by
  constructor
  · intro lines
    rw [load_rules_lines, load_rules_lines]
    exact foldl_loadStep_filter lines []
  · intro lines
    rw [rules_check]
    by_cases h : load_rules_lines lines = []
    · rw [if_pos h]
      exact ⟨fun _ => h, fun _ => ⟨_, rfl⟩⟩
    · rw [if_neg h]
      constructor
      · rintro ⟨e, he⟩
        simp at he
      · intro hcontr
        exact absurd hcontr h

/-- C8: category names in the loaded repository are unique, and a later
line for the same category deterministically replaces the earlier term
list: looking any category up in the result yields exactly the term
list of the last non-skipped line defining it. -/
theorem load_rules_last_one_wins :
    (∀ lines c, dictLookup (load_rules_lines lines) c = lastDefTerms lines c) ∧
    (∀ lines, ((load_rules_lines lines).map Prod.fst).Nodup) := by
  constructor
  · intro lines c
    rw [load_rules_lines, lastDefTerms]
    exact dictLookup_foldl_loadStep lines [] c
  · intro lines
    exact nodup_keys_foldl_loadStep lines [] (by simp)

/-- C9 (Scenario A): with rules
`{"INVOICE": ["ci:invoice", "ci:nota fiscal"]}` and text
"Invoice total. Nota Fiscal 123. INVOICE due.", case-insensitive
matching counts two "invoice" hits and one "nota fiscal" hit, the
INVOICE category scores exactly 3, the runner-up is UNKNOWN with score
0, and the decision is AUTO. -/
theorem scenario_A_auto :
    term_match_count "Invoice total. Nota Fiscal 123. INVOICE due."
        "ci:invoice" = 2 ∧
    term_match_count "Invoice total. Nota Fiscal 123. INVOICE due."
        "ci:nota fiscal" = 1 ∧
    classify_row "Invoice total. Nota Fiscal 123. INVOICE due."
        [("INVOICE", ["ci:invoice", "ci:nota fiscal"])] =
      ⟨"INVOICE", "3", "ci:invoice(2), ci:nota fiscal(1)", "UNKNOWN", "0",
        "AUTO"⟩ :=
  ⟨by decide, by decide, by decide⟩

/-- C10: `term_match_count` is total over its public interface: for
every text and every term string it returns a non-negative integer (the
fallible regex call is wrapped, so no exception escapes), and
consequently every category score is a non-negative integer. -/
theorem term_match_count_total_nonneg :
    (∀ text term, ∃ n : Nat, term_match_count text term = (n : Int)) ∧
    (∀ text terms, 0 ≤ (category_score_hits text terms).1) := by
  constructor
  · intro text term
    exact ⟨(term_match_count text term).toNat,
      (Int.toNat_of_nonneg (term_match_count_nonneg text term)).symm⟩
  · intro text terms
    rw [category_score_hits]
    exact foldl_scoreStep_nonneg text terms (0, []) (le_refl 0)

end Classify2
